import Mathlib

/-
Verification of the Gauss-Kronrod core of quadpy
(src/quadpy/line_segment/_gauss_kronrod.py) and of the Radon disk scheme
(src/quadpy/disk/_radon.py), as a shallow embedding in Lean 4.

Arithmetic is modelled exactly: rational numbers stand for the floating-point
values wherever the source only adds, subtracts, multiplies and divides, and
real numbers where square roots or the power 1.5 appear.  The one place where
IEEE-754 special values are semantically relevant -- the unguarded division
`200 * |val_gk - val_gl| / I_tilde` in the error estimate -- is modelled by an
explicit value type `FVal` with NaN and signed infinities, following the IEEE
rules numpy implements (x/0 = +-inf for x != 0, 0/0 = NaN, 0 * inf = NaN,
minimum propagates NaN, negative ** 1.5 = NaN).
-/

namespace Quadpy

/-- Number of recurrence coefficients consumed by `gauss_kronrod n` in the
source: `length = int(math.ceil(3 * n / 2.0)) + 1`; in natural-number
division `ceil (3n/2) = (3n+1)/2`. -/
def gk_length (n : ℕ) : ℕ := (3 * n + 1) / 2 + 1

/-- Exactness degree the source declares for the Kronrod scheme:
`degree = 2 * length + 1` in `gauss_kronrod`. -/
def gk_degree (n : ℕ) : ℕ := 2 * gk_length n + 1

/-- Degree the specification says is declared: `2 * L - 1` where `L` is the
number of recurrence coefficients consumed (spec section 4.3).  This
definition follows the spec's words, for comparison with `gk_degree`. -/
def spec_degree (n : ℕ) : ℕ := 2 * gk_length n - 1

/-- Prefix bound `int(math.floor(3 * n / 2.0)) + 1` used when copying `a0`
into `a` in `_r_kronrod`; in natural-number division `floor (3n/2) = 3n/2`. -/
def floor_idx (n : ℕ) : ℕ := 3 * n / 2 + 1

/-- Array read `l[i]` with default 0.  Every index the algorithm reads is in
bounds for the input lengths the assertions admit, so the default is inert. -/
def lget (l : List ℚ) (i : ℕ) : ℚ := l.getD i 0

/-- Running partial sums with initial accumulator `acc`. -/
def cumsumFrom (acc : ℚ) : List ℚ → List ℚ
  | [] => []
  | x :: xs => (acc + x) :: cumsumFrom (acc + x) xs

/-- Translation of `numpy.cumsum`: `cumsum [x1, x2, x3] = [x1, x1+x2, x1+x2+x3]`. -/
def cumsum (l : List ℚ) : List ℚ := cumsumFrom 0 l

/-- State of the Laurie recursion in `_r_kronrod`: the output coefficient
arrays `a`, `b` and the two double-buffered auxiliary arrays `s`, `t`. -/
structure RKState where
  a : List ℚ
  b : List ℚ
  s : List ℚ
  t : List ℚ

/-- One iteration of the forward pass of `_r_kronrod` (loop
`for m in range(n - 1)`).  The numpy fancy assignment
`s[k + 1] = cumsum(...)` with `k = arange(k0, -1, -1)` and `L = m - k`
evaluates the whole right-hand side with the old `s`, `t` and then writes the
cumulative sums at positions `k + 1`; the trailing `s, t = t, s` swap is
reflected in the constructor at the end. -/
def fwdStep (n : ℕ) (st : RKState) (m : ℕ) : RKState :=
  let k0 := (m + 1) / 2
  let terms := (List.range (k0 + 1)).map (fun i =>
    let k := k0 - i
    let L := m - k
    (lget st.a (k + n + 1) - lget st.a L) * lget st.t (k + 1)
      + lget st.b (k + n + 1) * lget st.s k
      - lget st.b L * lget st.s (k + 1))
  let cs := cumsum terms
  let snew := (List.range (k0 + 1)).foldl (fun acc i => acc.set (k0 - i + 1) (cs.getD i 0)) st.s
  ⟨st.a, st.b, st.t, snew⟩

/-- Realignment `s[1 : j + 1] = s[:j]` between the two passes, with
`j = floor(n/2) + 1` (numpy copies the overlapping slice correctly). -/
def shiftS (j : ℕ) (s : List ℚ) : List ℚ :=
  (List.range s.length).map (fun i => if 1 ≤ i ∧ i ≤ j then s.getD (i - 1) 0 else s.getD i 0)

/-- One iteration of the backward pass of `_r_kronrod` (loop
`for m in range(n - 1, 2 * n - 2)`).  With `k = arange(m + 1 - n, k1 + 1)`,
`L = m - k` and `j = n - 1 - L`, the `i`-th position has `k = (m + 1 - n) + i`,
hence `k + n + 1 = m + 2 + i`, `L = n - 1 - i` and `j = i`.  The cumulative
sums are written at `s[j + 1]`; the subsequent scalar update of `a[k + n + 1]`
(even `m`) or `b[k + n + 1]` (odd `m`) with `k = floor((m + 1)/2)` and
`j = j[-1]` reads the freshly written `s` and the old `t`; the final swap
`s, t = t, s` is reflected in the constructors. -/
def bwdStep (n : ℕ) (st : RKState) (m : ℕ) : RKState :=
  let k0 := m + 1 - n
  let k1 := (m - 1) / 2
  let len := k1 + 1 - k0
  let terms := (List.range len).map (fun i =>
    -(lget st.a (m + 2 + i) - lget st.a (n - 1 - i)) * lget st.t (i + 1)
      - lget st.b (m + 2 + i) * lget st.s (i + 1)
      + lget st.b (n - 1 - i) * lget st.s (i + 2))
  let cs := cumsum terms
  let snew := (List.range len).foldl (fun acc i => acc.set (i + 1) (cs.getD i 0)) st.s
  let jl := len - 1
  let kk := (m + 1) / 2
  if m % 2 = 0 then
    ⟨st.a.set (kk + n + 1)
        (lget st.a kk
          + (lget snew (jl + 1) - lget st.b (kk + n + 1) * lget snew (jl + 2))
            / lget st.t (jl + 2)),
      st.b, st.t, snew⟩
  else
    ⟨st.a, st.b.set (kk + n + 1) (lget snew (jl + 1) / lget snew (jl + 2)), st.t, snew⟩

/-- State of `_r_kronrod` after initialisation (zeros of length `2n + 1` with
the prefixes of `a0`, `b0` copied in, `t[1] = b[n + 1]`), the forward pass,
the realignment `s[1 : j + 1] = s[:j]` and the backward pass. -/
def rkPipeline (n : ℕ) (a0 b0 : List ℚ) : RKState :=
  let a1 := a0.take (floor_idx n) ++ List.replicate (2 * n + 1 - floor_idx n) 0
  let b1 := b0.take (gk_length n) ++ List.replicate (2 * n + 1 - gk_length n) 0
  let slen := n / 2 + 2
  let st0 : RKState := ⟨a1, b1, List.replicate slen 0, (List.replicate slen 0).set 1 (lget b1 (n + 1))⟩
  let st1 := (List.range (n - 1)).foldl (fwdStep n) st0
  let st2 : RKState := ⟨st1.a, st1.b, shiftS (n / 2 + 1) st1.s, st1.t⟩
  (List.range' (n - 1) (n - 1)).foldl (bwdStep n) st2

/-- Finalisation `a[2n] = a[n - 1] - b[2n] * s[1] / t[1]` of `_r_kronrod`, and
the returned pair `(a, b)`. -/
def rkFinalize (n : ℕ) (st : RKState) : List ℚ × List ℚ :=
  (st.a.set (2 * n) (lget st.a (n - 1) - lget st.b (2 * n) * lget st.s 1 / lget st.t 1), st.b)

/-- Body of `_r_kronrod` after the two length assertions. -/
def r_kronrod_core (n : ℕ) (a0 b0 : List ℚ) : List ℚ × List ℚ :=
  rkFinalize n (rkPipeline n a0 b0)

/-- Translation of `_r_kronrod` including its two `assert` statements on the
input lengths: a failing assertion is modelled as `none`. -/
def r_kronrod (n : ℕ) (a0 b0 : List ℚ) : Option (List ℚ × List ℚ) :=
  if a0.length = gk_length n ∧ b0.length = gk_length n then
    some (r_kronrod_core n a0 b0)
  else
    none

/-- Translation of `i = numpy.argsort(x)` from `gauss_kronrod`, realised with
a merge sort of the index range keyed by the node values. -/
def argsort (x : List ℚ) : List ℕ :=
  (List.range x.length).mergeSort (fun i j => decide (x.getD i 0 ≤ x.getD j 0))

/-- Translation of the sorting step of `gauss_kronrod`:
`i = numpy.argsort(x); points = x[i]; weights = w[i]`. -/
def sort_rule (x w : List ℚ) : List ℚ × List ℚ :=
  let idx := argsort x
  (idx.map (fun j => x.getD j 0), idx.map (fun j => w.getD j 0))

/-- Point/weight data consumed by `_gauss_kronrod_integrate`: the Kronrod
points and weights `gk.points`, `gk.weights` and the companion Gauss-Legendre
weights `gl.weights`.  These numeric arrays are produced by `scheme_from_rc`
and the eigensolver, which are outside the shown core, so the integrator is
verified for arbitrary values of them. -/
structure GKScheme where
  points : List ℚ
  weights : List ℚ
  gauss_weights : List ℚ

/-- Translation of the point mapping of `_gauss_kronrod_integrate`:
`x0 = 0.5 * (1.0 - t)`, `x1 = 0.5 * (1.0 + t)`, sample point
`lo * x0 + hi * x1` (scalar interval pair `intervals = (lo, hi)`). -/
def mapPoint (lo hi t : ℚ) : ℚ := lo * (1 / 2 * (1 - t)) + hi * (1 / 2 * (1 + t))

/-- Affine map stated by the spec, section 4.4: `x(t) = lo + (t+1)/2 * (hi - lo)`.
This definition follows the spec's words, for comparison with `mapPoint`. -/
def specAffineMap (lo hi t : ℚ) : ℚ := lo + (t + 1) / 2 * (hi - lo)

/-- Translation of `numpy.dot` on one-dimensional arrays. -/
def dot (u v : List ℚ) : ℚ := (List.zipWith (fun x y => x * y) u v).sum

/-- Translation of the numpy slice `[..., 1::2]`: every second entry,
starting at offset 1. -/
def sliceOdd : List ℚ → List ℚ
  | [] => []
  | [_] => []
  | _ :: y :: rest => y :: sliceOdd rest

/-- Finite values computed by `_gauss_kronrod_integrate` before the error
estimate, for one scalar interval `(lo, hi)` and a vectorised integrand `f`
(one application of `f` to the whole list of mapped sample points, exactly as
in the source): the two quadrature values, the scale `alpha` and `I_tilde`.
For scalar endpoints `alpha = sqrt(sum((hi - lo)^2))` is `|hi - lo|`. -/
structure GKValues where
  val_gauss_kronrod : ℚ
  val_gauss_legendre : ℚ
  alpha : ℚ
  I_tilde : ℚ

/-- First stage of `_gauss_kronrod_integrate`: sample points, one shared
evaluation `fx_gk = f(sp)`, the odd-indexed subset `fx_gl = fx_gk[..., 1::2]`,
`alpha`, both weighted quadrature values, `average = val_gk / alpha`,
`fx_avg_abs = |fx_gk - average|` and `I_tilde`. -/
def gk_values (sch : GKScheme) (f : List ℚ → List ℚ) (lo hi : ℚ) : GKValues :=
  let sp := sch.points.map (mapPoint lo hi)
  let fx_gk := f sp
  let fx_gl := sliceOdd fx_gk
  let alpha := |hi - lo|
  let val_gk := 1 / 2 * alpha * dot fx_gk sch.weights
  let val_gl := 1 / 2 * alpha * dot fx_gl sch.gauss_weights
  let average := val_gk / alpha
  let fx_avg_abs := fx_gk.map (fun v => |v - average|)
  let it := 1 / 2 * alpha * dot fx_avg_abs sch.weights
  ⟨val_gk, val_gl, alpha, it⟩

/-- IEEE-754-style value: NaN, the two infinities, or a finite value
(modelled as an exact real). -/
inductive FVal where
  | nan : FVal
  | posinf : FVal
  | neginf : FVal
  | fin : ℝ → FVal

/-- IEEE division as numpy performs it: `x / 0` is NaN for `x = 0` and a
signed infinity otherwise; finite otherwise. -/
noncomputable def ediv (x y : ℝ) : FVal :=
  if y = 0 then (if x = 0 then FVal.nan else if 0 < x then FVal.posinf else FVal.neginf)
  else FVal.fin (x / y)

/-- Real power `x ** 1.5 = x * sqrt x` for nonnegative `x`. -/
noncomputable def pow15 (x : ℝ) : ℝ := x * Real.sqrt x

/-- IEEE behaviour of `v ** 1.5`: NaN stays NaN, `+inf ** 1.5 = +inf`,
a negative argument (including `-inf`) yields NaN. -/
noncomputable def fpow15 : FVal → FVal
  | FVal.nan => FVal.nan
  | FVal.posinf => FVal.posinf
  | FVal.neginf => FVal.nan
  | FVal.fin x => if x < 0 then FVal.nan else FVal.fin (pow15 x)

/-- IEEE behaviour of `numpy.minimum(1, v)`: NaN propagates,
`min(1, +inf) = 1`, `min(1, -inf) = -inf`. -/
noncomputable def fmin1 : FVal → FVal
  | FVal.nan => FVal.nan
  | FVal.posinf => FVal.fin 1
  | FVal.neginf => FVal.neginf
  | FVal.fin x => FVal.fin (min 1 x)

/-- IEEE behaviour of the final product `c * v`: NaN propagates,
`0 * (+-inf)` is NaN, a nonzero finite factor keeps a signed infinity. -/
noncomputable def fscale (c : ℝ) : FVal → FVal
  | FVal.nan => FVal.nan
  | FVal.posinf => if c = 0 then FVal.nan else if 0 < c then FVal.posinf else FVal.neginf
  | FVal.neginf => if c = 0 then FVal.nan else if 0 < c then FVal.neginf else FVal.posinf
  | FVal.fin x => FVal.fin (c * x)

/-- Translation of the error estimate of `_gauss_kronrod_integrate`:
`I_tilde * numpy.minimum(ones, (200 * abs(val_gk - val_gl) / I_tilde) ** 1.5)`
with IEEE semantics for the division (there is no guard in the source). -/
noncomputable def error_estimate (it d : ℝ) : FVal :=
  fscale it (fmin1 (fpow15 (ediv (200 * |d|) it)))

/-- Translation of `_gauss_kronrod_integrate` for one scalar interval:
returns `val_gauss_kronrod, val_gauss_legendr, alpha, error_estimate`. -/
noncomputable def gauss_kronrod_integrate (sch : GKScheme) (f : List ℚ → List ℚ) (lo hi : ℚ) :
    ℚ × ℚ × ℚ × FVal :=
  let v := gk_values sch f lo hi
  (v.val_gauss_kronrod, v.val_gauss_legendre, v.alpha,
    error_estimate (v.I_tilde : ℝ) ((v.val_gauss_kronrod - v.val_gauss_legendre : ℚ) : ℝ))

/-- Predicate: the value is finite and nonnegative. -/
def FVal.isNonnegFin : FVal → Prop
  | FVal.fin x => 0 ≤ x
  | _ => False

/-- Central weight of the Radon scheme: `A = frac(4, (alpha + 4) ** 2)`. -/
noncomputable def radon_A (α : ℝ) : ℝ := 4 / (α + 4) ^ 2

/-- Outer weight of the Radon scheme:
`B = frac((alpha + 2) * (alpha + 6), 6 * (alpha + 4) ** 2)`. -/
noncomputable def radon_B (α : ℝ) : ℝ := (α + 2) * (α + 6) / (6 * (α + 4) ^ 2)

/-- Modelled from the spec: the helper `untangle` (from `quadpy.helpers`, not
under src/) flattens a list of `(weight, point-block)` pairs into the
concatenated point list and the weight list with each weight repeated once
per point of its block; the helper `z 2` denotes the single origin point. -/
def untangle (data : List (ℝ × List (ℝ × ℝ))) : List (ℝ × ℝ) × List ℝ :=
  ((data.map Prod.snd).flatten,
    (data.map (fun p => List.replicate p.snd.length p.fst)).flatten)

/-- Translation of the `data` list of `radon`: the centre point with weight
`A`, the two points `(+-r, 0)` with weight `B`, and the four points
`(+-s, +-t)` with weight `B`, with `r`, `s`, `t` as in the source. -/
noncomputable def radon_data (α : ℝ) : List (ℝ × List (ℝ × ℝ)) :=
  let r := Real.sqrt ((α + 4) / (α + 6))
  let s := Real.sqrt ((α + 4) / (4 * (α + 6)))
  let t := Real.sqrt (3 * (α + 4) / (4 * (α + 6)))
  [(radon_A α, [(0, 0)]),
    (radon_B α, [(r, 0), (-r, 0)]),
    (radon_B α, [(s, t), (-s, t), (s, -t), (-s, -t)])]

/-- Points of the Radon scheme, via `untangle`. -/
noncomputable def radon_points (α : ℝ) : List (ℝ × ℝ) := (untangle (radon_data α)).1

/-- Weights of the Radon scheme: the untangled weights scaled by `pi`
(`weights *= pi` in the source). -/
noncomputable def radon_weights (α : ℝ) : List ℝ :=
  ((untangle (radon_data α)).2).map (fun w => w * Real.pi)

/-- Concrete scheme data used to instantiate the integrator theorems: two
Kronrod points, whose odd-indexed subset is the single Gauss point. -/
def schW : GKScheme := ⟨[0, 1], [1, 1], [1]⟩

/-- Variant of `schW` whose Gauss weight makes both quadrature values agree
on constant integrands. -/
def schW2 : GKScheme := ⟨[0, 1], [1, 1], [2]⟩

/-- Identity integrand (vectorised). -/
def idf : List ℚ → List ℚ := fun l => l

/-- Integrand that is identically zero. -/
def zerof : List ℚ → List ℚ := fun l => l.map (fun _ => 0)

/-- Integrand that is identically five. -/
def constf : List ℚ → List ℚ := fun l => l.map (fun _ => 5)

/-- Integrand that agrees with `idf` on every nonempty sample array but not
on the empty one. -/
def gIf : List ℚ → List ℚ := fun l => if l = [] then [] else l

/-- Invariant carried through the Laurie recursion: the output arrays keep
length `2n + 1` and the first `floor(3n/2) + 1` entries of `a` and `b` agree
with the inputs `a0` and `b0`. -/
def PrefixInv (n : ℕ) (a0 b0 : List ℚ) (st : RKState) : Prop :=
  st.a.length = 2 * n + 1 ∧ st.b.length = 2 * n + 1
    ∧ ∀ i < floor_idx n, st.a.getD i 0 = a0.getD i 0 ∧ st.b.getD i 0 = b0.getD i 0

theorem getD_set_ne (l : List ℚ) (i j : ℕ) (x : ℚ) (hij : i ≠ j) :
    (l.set i x).getD j 0 = l.getD j 0 := by
  by_cases hj : j < l.length
  · rw [List.getD_eq_getElem _ _ (by simpa using hj), List.getD_eq_getElem _ _ hj]
    exact List.getElem_set_ne hij _
  · rw [List.getD_eq_default _ _ (by simpa using not_lt.mp hj),
      List.getD_eq_default _ _ (not_lt.mp hj)]

theorem foldl_preserve {α β : Type} (P : β → Prop) (step : β → α → β) (l : List α) (st : β)
    (h0 : P st) (hstep : ∀ st' x, x ∈ l → P st' → P (step st' x)) :
    P (l.foldl step st) := by
  induction l generalizing st with
  | nil => exact h0
  | cons x xs ih =>
    exact ih _ (hstep _ _ (List.mem_cons_self _ _) h0)
      (fun st' y hy => hstep st' y (List.mem_cons_of_mem _ hy))

theorem dot_nonneg : ∀ u v : List ℚ, (∀ x ∈ u, 0 ≤ x) → (∀ y ∈ v, 0 ≤ y) → 0 ≤ dot u v
  | [], _, _, _ => le_refl 0
  | _ :: _, [], _, _ => le_refl 0
  | x :: xs, y :: ys, hu, hv => by
    have h1 : 0 ≤ x * y :=
      mul_nonneg (hu x (List.mem_cons_self _ _)) (hv y (List.mem_cons_self _ _))
    have h2 : 0 ≤ dot xs ys :=
      dot_nonneg xs ys (fun z hz => hu z (List.mem_cons_of_mem _ hz))
        (fun z hz => hv z (List.mem_cons_of_mem _ hz))
    show 0 ≤ x * y + dot xs ys
    exact add_nonneg h1 h2

/-- C1: the claim says `gauss_kronrod n` declares the exactness degree
`2 * L - 1` with `L = ceil(3n/2) + 1` (equivalently `3n + 1`); the source
instead sets `degree = 2 * length + 1`.  At the failing input `n = 1` the
declared degree is 7 while `2 * L - 1 = 5`; no 3-point rule can integrate
every polynomial of degree 7 exactly, so the declared value overstates the
degree by 2 for every `n`. -/
theorem gauss_kronrod_degree_mismatch :
    gk_degree 1 = 7 ∧ spec_degree 1 = 5 ∧ ∀ n : ℕ, gk_degree n = spec_degree n + 2 := by
  refine ⟨rfl, rfl, fun n => ?_⟩
  unfold gk_degree spec_degree gk_length
  omega

/-- C9: the two-coefficient formulation `lo * (1-t)/2 + hi * (1+t)/2` used by
`_gauss_kronrod_integrate` coincides with the affine map
`lo + (t+1)/2 * (hi - lo)` of the spec, for every node and endpoint pair. -/
theorem mapPoint_eq_specAffineMap (lo hi t : ℚ) : mapPoint lo hi t = specAffineMap lo hi t := by
  unfold mapPoint specAffineMap
  ring

/-- C3: for `n ≥ 1`, `_r_kronrod` succeeds exactly when both coefficient
arrays have length `ceil(3n/2) + 1`; any other length fails the `assert`
preconditions. -/
theorem r_kronrod_assertions (n : ℕ) (hn : 1 ≤ n) (a0 b0 : List ℚ) :
    (r_kronrod n a0 b0).isSome ↔ (a0.length = gk_length n ∧ b0.length = gk_length n) := by
  unfold r_kronrod
  split <;> simp_all

theorem r_kronrod_assertions_witness :
    ((r_kronrod 1 [(1 : ℚ), 2, 3] [4, 5, 6]).isSome ↔
        ([(1 : ℚ), 2, 3].length = gk_length 1 ∧ [(4 : ℚ), 5, 6].length = gk_length 1))
      ∧ ¬ (r_kronrod 1 [(1 : ℚ), 2] [4, 5, 6]).isSome :=
  ⟨r_kronrod_assertions 1 (by decide) _ _, by decide⟩

/-- C10: for every parameter `alpha` with `alpha + 4` and `alpha + 6` nonzero,
in exact arithmetic, the Radon weights satisfy `A + 6B = 1`, so the seven
weights (each scaled by `pi`) sum exactly to `pi`; and the scheme has exactly
7 points. -/
theorem radon_weight_sum (α : ℝ) (h4 : α + 4 ≠ 0) (h6 : α + 6 ≠ 0) :
    radon_A α + 6 * radon_B α = 1
      ∧ (radon_weights α).sum = Real.pi
      ∧ (radon_points α).length = 7 := by
  have key : radon_A α + 6 * radon_B α = 1 := by
    unfold radon_A radon_B
    field_simp
    ring
  refine ⟨key, ?_, ?_⟩
  · have hw : radon_weights α
        = [radon_A α * Real.pi, radon_B α * Real.pi, radon_B α * Real.pi,
            radon_B α * Real.pi, radon_B α * Real.pi, radon_B α * Real.pi,
            radon_B α * Real.pi] := by
      simp [radon_weights, untangle, radon_data, List.replicate]
    rw [hw]
    simp only [List.sum_cons, List.sum_nil]
    linear_combination Real.pi * key
  · simp [radon_points, untangle, radon_data]

theorem radon_weight_sum_witness :
    ((0 : ℝ) + 4 ≠ 0) ∧ ((0 : ℝ) + 6 ≠ 0)
      ∧ (radon_A 0 + 6 * radon_B 0 = 1
        ∧ (radon_weights 0).sum = Real.pi
        ∧ (radon_points 0).length = 7) :=
  ⟨by norm_num, by norm_num, radon_weight_sum 0 (by norm_num) (by norm_num)⟩

theorem range_map_getD_eq_zip (x w : List ℚ) (h : w.length = x.length) :
    (List.range x.length).map (fun j => (x.getD j 0, w.getD j 0)) = x.zip w := by
  apply List.ext_getElem
  · simp [List.length_zip, h]
  · intro i h1 h2
    have hx : i < x.length := by simpa using h1
    have hw : i < w.length := by omega
    simp only [List.getElem_map, List.getElem_range, List.getElem_zip]
    rw [List.getD_eq_getElem _ _ hx, List.getD_eq_getElem _ _ hw]

/-- C8: the node sequence produced by the sorting step of `gauss_kronrod`
(`i = argsort(x); points = x[i]; weights = w[i]`) is sorted ascending, and
the reindexed node/weight pairs are a permutation of the original pairs, so
each weight stays paired with its original node. -/
theorem sort_rule_sorted_aligned (x w : List ℚ) (h : w.length = x.length) :
    (sort_rule x w).1.Sorted (· ≤ ·)
      ∧ ((sort_rule x w).1.zip (sort_rule x w).2).Perm (x.zip w) := by
  have hsorted : (argsort x).Pairwise (fun i j => x.getD i 0 ≤ x.getD j 0) := by
    have hs := @List.sorted_mergeSort ℕ (fun i j => decide (x.getD i 0 ≤ x.getD j 0))
      (fun a b c hab hbc =>
        decide_eq_true (le_trans (of_decide_eq_true hab) (of_decide_eq_true hbc)))
      (fun a b => by simpa using le_total (x.getD a 0) (x.getD b 0))
      (List.range x.length)
    exact hs.imp (fun hab => of_decide_eq_true hab)
  have hperm : (argsort x).Perm (List.range x.length) := List.mergeSort_perm _ _
  constructor
  · exact List.pairwise_map.mpr hsorted
  · have e1 : ((sort_rule x w).1.zip (sort_rule x w).2)
        = (argsort x).map (fun j => (x.getD j 0, w.getD j 0)) := List.zip_map' _ _ _
    rw [e1, ← range_map_getD_eq_zip x w h]
    exact hperm.map _

theorem sort_rule_sorted_aligned_witness :
    ([(10 : ℚ), 20, 30].length = [(1 : ℚ) / 2, -1, 0].length)
      ∧ ((sort_rule [(1 : ℚ) / 2, -1, 0] [10, 20, 30]).1.Sorted (· ≤ ·)
        ∧ ((sort_rule [(1 : ℚ) / 2, -1, 0] [10, 20, 30]).1.zip
            (sort_rule [(1 : ℚ) / 2, -1, 0] [10, 20, 30]).2).Perm
          ([(1 : ℚ) / 2, -1, 0].zip [10, 20, 30])) :=
  ⟨by decide, sort_rule_sorted_aligned _ _ (by decide)⟩

theorem gauss_kronrod_integrate_err (sch : GKScheme) (f : List ℚ → List ℚ) (lo hi : ℚ) :
    (gauss_kronrod_integrate sch f lo hi).2.2.2
      = error_estimate ((gk_values sch f lo hi).I_tilde : ℝ)
          (((gk_values sch f lo hi).val_gauss_kronrod
            - (gk_values sch f lo hi).val_gauss_legendre : ℚ) : ℝ) := rfl

theorem spW_eq : schW.points.map (mapPoint 0 2) = [1, 2] := by
  norm_num [schW, mapPoint]

theorem gk_values_schW_idf : gk_values schW idf 0 2 = ⟨3, 2, 2, 1⟩ := by
  norm_num [gk_values, schW, idf, mapPoint, dot, sliceOdd, abs_div, abs_one, abs_two]

theorem gk_values_schW2_constf : gk_values schW2 constf 0 1 = ⟨5, 5, 1, 0⟩ := by
  norm_num [gk_values, schW2, constf, mapPoint, dot, sliceOdd, abs_div, abs_one, abs_two]

theorem gk_values_schW_zerof : gk_values schW zerof 0 1 = ⟨0, 0, 1, 0⟩ := by
  norm_num [gk_values, schW, zerof, mapPoint, dot, sliceOdd, abs_div, abs_one, abs_two]

theorem error_estimate_pos_eq (it d : ℝ) (h : 0 < it) :
    error_estimate it d = FVal.fin (it * min 1 (pow15 (200 * |d| / it))) := by
  have hne : it ≠ 0 := ne_of_gt h
  have harg : ¬ (200 * |d| / it < 0) := by
    push_neg
    positivity
  simp only [error_estimate, ediv, if_neg hne, fpow15, if_neg harg, fmin1, fscale]

theorem error_estimate_zero_eq (d : ℝ) :
    error_estimate 0 d = if d = 0 then FVal.nan else FVal.fin 0 := by
  by_cases hd : d = 0
  · simp [error_estimate, ediv, hd, fpow15, fmin1, fscale]
  · have habs : (0 : ℝ) < 200 * |d| := by
      have := abs_pos.mpr hd
      linarith
    simp [error_estimate, ediv, hd, habs.ne', habs, fpow15, fmin1, fscale]

theorem I_tilde_nonneg (sch : GKScheme) (f : List ℚ → List ℚ) (lo hi : ℚ)
    (hw : ∀ w ∈ sch.weights, 0 ≤ w) : 0 ≤ (gk_values sch f lo hi).I_tilde := by
  unfold gk_values
  dsimp only
  refine mul_nonneg (mul_nonneg (by norm_num) (abs_nonneg _)) (dot_nonneg _ _ ?_ hw)
  intro z hz
  obtain ⟨v, hv, rfl⟩ := List.mem_map.mp hz
  exact abs_nonneg _

/-- C6: for every integration call whose `I_tilde` is nonzero (with
nonnegative Kronrod weights, as holds for every actual Kronrod rule), the
returned error estimate equals
`I_tilde * min(1, (200 * |val_kronrod - val_gauss| / I_tilde)^1.5)`, where
`I_tilde = 0.5 * alpha * (Kronrod-weighted sum of |f(x) - val_kronrod/alpha|)`
as computed by `gk_values`. -/
theorem error_estimate_formula (sch : GKScheme) (f : List ℚ → List ℚ) (lo hi : ℚ)
    (hw : ∀ w ∈ sch.weights, 0 ≤ w)
    (h : (gk_values sch f lo hi).I_tilde ≠ 0) :
    (gauss_kronrod_integrate sch f lo hi).2.2.2
      = FVal.fin (((gk_values sch f lo hi).I_tilde : ℝ)
          * min 1 (pow15 (200 * |(((gk_values sch f lo hi).val_gauss_kronrod
                - (gk_values sch f lo hi).val_gauss_legendre : ℚ) : ℝ)|
              / ((gk_values sch f lo hi).I_tilde : ℝ)))) := by
  have hpos : (0 : ℚ) < (gk_values sch f lo hi).I_tilde :=
    lt_of_le_of_ne (I_tilde_nonneg sch f lo hi hw) (Ne.symm h)
  have hposR : (0 : ℝ) < ((gk_values sch f lo hi).I_tilde : ℝ) := by exact_mod_cast hpos
  rw [gauss_kronrod_integrate_err, error_estimate_pos_eq _ _ hposR]

theorem error_estimate_formula_witness :
    (∀ w ∈ schW.weights, (0 : ℚ) ≤ w)
      ∧ (gk_values schW idf 0 2).I_tilde ≠ 0
      ∧ (gauss_kronrod_integrate schW idf 0 2).2.2.2
          = FVal.fin (((gk_values schW idf 0 2).I_tilde : ℝ)
              * min 1 (pow15 (200 * |(((gk_values schW idf 0 2).val_gauss_kronrod
                    - (gk_values schW idf 0 2).val_gauss_legendre : ℚ) : ℝ)|
                  / ((gk_values schW idf 0 2).I_tilde : ℝ)))) :=
  ⟨by decide, by rw [gk_values_schW_idf]; norm_num,
    error_estimate_formula _ _ _ _ (by decide) (by rw [gk_values_schW_idf]; norm_num)⟩

/-- C2 counterexample: a concrete integration call (constant integrand 5 on
the interval `(0, 1)`) in which `I_tilde = 0` and the two quadrature values
agree exactly, so the unguarded division `0/0` makes the returned error
estimate NaN, not 0: the source has no guard for `I_tilde == 0`. -/
theorem error_guard_counterexample :
    (gk_values schW2 constf 0 1).I_tilde = 0
      ∧ (gauss_kronrod_integrate schW2 constf 0 1).2.2.2 = FVal.nan
      ∧ FVal.nan ≠ FVal.fin 0 := by
  refine ⟨by rw [gk_values_schW2_constf], ?_, fun hc => FVal.noConfusion hc⟩
  rw [gauss_kronrod_integrate_err, gk_values_schW2_constf]
  norm_num
  rw [error_estimate_zero_eq]
  simp

/-- C2 amended: when `I_tilde = 0` the code performs the division anyway; the
returned error estimate is NaN when the Kronrod and Gauss values are exactly
equal (`0/0`), and 0 when they differ (`I_tilde * min(1, inf) = 0 * 1`). -/
theorem error_estimate_at_I_tilde_zero (sch : GKScheme) (f : List ℚ → List ℚ) (lo hi : ℚ)
    (h : (gk_values sch f lo hi).I_tilde = 0) :
    (gauss_kronrod_integrate sch f lo hi).2.2.2
      = if (gk_values sch f lo hi).val_gauss_kronrod
            = (gk_values sch f lo hi).val_gauss_legendre
        then FVal.nan else FVal.fin 0 := by
  rw [gauss_kronrod_integrate_err, h, Rat.cast_zero, error_estimate_zero_eq]
  have hiff : ((((gk_values sch f lo hi).val_gauss_kronrod
        - (gk_values sch f lo hi).val_gauss_legendre : ℚ) : ℝ) = 0)
      ↔ (gk_values sch f lo hi).val_gauss_kronrod
          = (gk_values sch f lo hi).val_gauss_legendre := by
    rw [Rat.cast_eq_zero, sub_eq_zero]
  by_cases hv : (gk_values sch f lo hi).val_gauss_kronrod
      = (gk_values sch f lo hi).val_gauss_legendre
  · rw [if_pos (hiff.mpr hv), if_pos hv]
  · rw [if_neg (fun hc => hv (hiff.mp hc)), if_neg hv]

theorem error_estimate_at_I_tilde_zero_witness :
    (gk_values schW2 constf 0 1).I_tilde = 0
      ∧ (gauss_kronrod_integrate schW2 constf 0 1).2.2.2
          = (if (gk_values schW2 constf 0 1).val_gauss_kronrod
                = (gk_values schW2 constf 0 1).val_gauss_legendre
            then FVal.nan else FVal.fin 0) :=
  ⟨by rw [gk_values_schW2_constf],
    error_estimate_at_I_tilde_zero _ _ _ _ (by rw [gk_values_schW2_constf])⟩

/-- C7 counterexample: a concrete integration call (integrand identically 0)
whose returned error estimate is NaN, hence not a nonnegative number: the
claim that every returned error estimate is non-negative fails on the
`I_tilde = 0` corner. -/
theorem error_nonneg_counterexample :
    ¬ (gauss_kronrod_integrate schW zerof 0 1).2.2.2.isNonnegFin := by
  rw [gauss_kronrod_integrate_err, gk_values_schW_zerof]
  norm_num
  rw [error_estimate_zero_eq]
  simp [FVal.isNonnegFin]

/-- C7 amended: whenever `I_tilde` is nonzero (with nonnegative Kronrod
weights, as for every actual Kronrod rule), the returned error estimate is a
nonnegative finite number; when `I_tilde = 0` it is NaN (quadrature values
exactly equal) or 0 instead. -/
theorem error_estimate_nonneg (sch : GKScheme) (f : List ℚ → List ℚ) (lo hi : ℚ)
    (hw : ∀ w ∈ sch.weights, 0 ≤ w)
    (h : (gk_values sch f lo hi).I_tilde ≠ 0) :
    (gauss_kronrod_integrate sch f lo hi).2.2.2.isNonnegFin := by
  have hpos : (0 : ℚ) < (gk_values sch f lo hi).I_tilde :=
    lt_of_le_of_ne (I_tilde_nonneg sch f lo hi hw) (Ne.symm h)
  have hposR : (0 : ℝ) < ((gk_values sch f lo hi).I_tilde : ℝ) := by exact_mod_cast hpos
  rw [gauss_kronrod_integrate_err, error_estimate_pos_eq _ _ hposR]
  simp only [FVal.isNonnegFin]
  have ht : (0 : ℝ) ≤ 200 * |(((gk_values sch f lo hi).val_gauss_kronrod
      - (gk_values sch f lo hi).val_gauss_legendre : ℚ) : ℝ)|
      / ((gk_values sch f lo hi).I_tilde : ℝ) := by positivity
  have hp : 0 ≤ pow15 (200 * |(((gk_values sch f lo hi).val_gauss_kronrod
      - (gk_values sch f lo hi).val_gauss_legendre : ℚ) : ℝ)|
      / ((gk_values sch f lo hi).I_tilde : ℝ)) :=
    mul_nonneg ht (Real.sqrt_nonneg _)
  exact mul_nonneg hposR.le (le_min (by norm_num) hp)

theorem error_estimate_nonneg_witness :
    (∀ w ∈ schW.weights, (0 : ℚ) ≤ w)
      ∧ (gk_values schW idf 0 2).I_tilde ≠ 0
      ∧ (gauss_kronrod_integrate schW idf 0 2).2.2.2.isNonnegFin :=
  ⟨by decide, by rw [gk_values_schW_idf]; norm_num,
    error_estimate_nonneg _ _ _ _ (by decide) (by rw [gk_values_schW_idf]; norm_num)⟩

/-- C5: the integrand is applied once, to the whole array of mapped Kronrod
sample points: the returned Gauss value is computed from the odd-indexed
subset (`[..., 1::2]`) of that single evaluation array combined with the
Gauss-Legendre weights, and any integrand agreeing with `f` on the mapped
sample array produces the identical result, so no second evaluation of `f`
(at any other points) can influence the output. -/
theorem shared_evaluation (sch : GKScheme) (f g : List ℚ → List ℚ) (lo hi : ℚ)
    (h : g (sch.points.map (mapPoint lo hi)) = f (sch.points.map (mapPoint lo hi))) :
    (gauss_kronrod_integrate sch f lo hi).2.1
        = 1 / 2 * |hi - lo|
          * dot (sliceOdd (f (sch.points.map (mapPoint lo hi)))) sch.gauss_weights
      ∧ gauss_kronrod_integrate sch g lo hi = gauss_kronrod_integrate sch f lo hi := by
  constructor
  · rfl
  · simp only [gauss_kronrod_integrate, gk_values]
    rw [h]

theorem shared_evaluation_witness :
    gIf (schW.points.map (mapPoint 0 2)) = idf (schW.points.map (mapPoint 0 2))
      ∧ ((gauss_kronrod_integrate schW idf 0 2).2.1
          = 1 / 2 * |(2 : ℚ) - 0|
            * dot (sliceOdd (idf (schW.points.map (mapPoint 0 2)))) schW.gauss_weights
        ∧ gauss_kronrod_integrate schW gIf 0 2 = gauss_kronrod_integrate schW idf 0 2) :=
  ⟨by rw [spW_eq]; simp [gIf, idf],
    shared_evaluation schW idf gIf 0 2 (by rw [spW_eq]; simp [gIf, idf])⟩

theorem getD_take_append (l : List ℚ) (k pad i : ℕ) (hik : i < k) (hil : i < l.length) :
    (l.take k ++ List.replicate pad (0 : ℚ)).getD i 0 = l.getD i 0 := by
  have hit : i < (l.take k).length := by
    rw [List.length_take]
    exact lt_min hik hil
  rw [List.getD_append _ _ _ i hit, List.getD_eq_getElem _ _ hit, List.getD_eq_getElem _ _ hil]
  exact List.getElem_take _

theorem prefixInv_init (n : ℕ) (a0 b0 : List ℚ)
    (ha : a0.length = gk_length n) (hb : b0.length = gk_length n) (s t : List ℚ) :
    PrefixInv n a0 b0
      ⟨a0.take (floor_idx n) ++ List.replicate (2 * n + 1 - floor_idx n) 0,
        b0.take (gk_length n) ++ List.replicate (2 * n + 1 - gk_length n) 0, s, t⟩ := by
  have h1 : floor_idx n ≤ gk_length n := by
    unfold floor_idx gk_length
    omega
  have h2 : floor_idx n ≤ 2 * n + 1 := by
    unfold floor_idx
    omega
  have h3 : gk_length n ≤ 2 * n + 1 := by
    unfold gk_length
    omega
  unfold PrefixInv
  dsimp only
  refine ⟨?_, ?_, ?_⟩
  · rw [List.length_append, List.length_take, List.length_replicate, ha, min_eq_left h1]
    omega
  · rw [List.length_append, List.length_take, List.length_replicate, hb, min_self]
    omega
  · intro i hi
    have hia : i < a0.length := by
      rw [ha]
      omega
    have hib : i < b0.length := by
      rw [hb]
      omega
    exact ⟨getD_take_append a0 (floor_idx n) _ i hi hia,
      getD_take_append b0 (gk_length n) _ i (lt_of_lt_of_le hi h1) hib⟩

theorem prefixInv_fwdStep (n : ℕ) (a0 b0 : List ℚ) (st : RKState) (m : ℕ)
    (h : PrefixInv n a0 b0 st) : PrefixInv n a0 b0 (fwdStep n st m) := h

theorem prefixInv_bwdStep (n : ℕ) (a0 b0 : List ℚ) (st : RKState) (m : ℕ)
    (hn : 1 ≤ n) (hm : n - 1 ≤ m) (h : PrefixInv n a0 b0 st) :
    PrefixInv n a0 b0 (bwdStep n st m) := by
  obtain ⟨hla, hlb, hpre⟩ := h
  unfold PrefixInv
  simp only [bwdStep]
  split
  · dsimp only
    refine ⟨?_, hlb, ?_⟩
    · rw [List.length_set]
      exact hla
    · intro i hi
      refine ⟨?_, (hpre i hi).2⟩
      rw [getD_set_ne _ _ _ _ ?_]
      · exact (hpre i hi).1
      · unfold floor_idx at hi
        omega
  · dsimp only
    refine ⟨hla, ?_, ?_⟩
    · rw [List.length_set]
      exact hlb
    · intro i hi
      refine ⟨(hpre i hi).1, ?_⟩
      rw [getD_set_ne _ _ _ _ ?_]
      · exact (hpre i hi).2
      · unfold floor_idx at hi
        omega

theorem rkPipeline_inv (n : ℕ) (hn : 1 ≤ n) (a0 b0 : List ℚ)
    (ha : a0.length = gk_length n) (hb : b0.length = gk_length n) :
    PrefixInv n a0 b0 (rkPipeline n a0 b0) := by
  unfold rkPipeline
  dsimp only
  refine foldl_preserve _ _ _ _ ?_ (fun st' x hx hp => ?_)
  · exact foldl_preserve _ _ _ _ (prefixInv_init n a0 b0 ha hb _ _)
      (fun st' x _ hp => prefixInv_fwdStep n a0 b0 st' x hp)
  · refine prefixInv_bwdStep n a0 b0 st' x hn ?_ hp
    obtain ⟨i, hi, hxe⟩ := List.mem_range'.mp hx
    omega

/-- C4: for every `n ≥ 1` and inputs of the admitted length
`ceil(3n/2) + 1`, the arrays `(a, b)` returned by `_r_kronrod` have length
`2n + 1` each and their first `floor(3n/2) + 1` entries equal the
corresponding entries of `a0` and `b0`: the two passes and the finalisation
only write at index `floor(3n/2) + 1` or beyond. -/
theorem r_kronrod_frame (n : ℕ) (hn : 1 ≤ n) (a0 b0 : List ℚ)
    (ha : a0.length = gk_length n) (hb : b0.length = gk_length n) :
    (r_kronrod_core n a0 b0).1.length = 2 * n + 1
      ∧ (r_kronrod_core n a0 b0).2.length = 2 * n + 1
      ∧ ∀ i < floor_idx n,
          (r_kronrod_core n a0 b0).1.getD i 0 = a0.getD i 0
            ∧ (r_kronrod_core n a0 b0).2.getD i 0 = b0.getD i 0 := by
  obtain ⟨hLa, hLb, hPre⟩ := rkPipeline_inv n hn a0 b0 ha hb
  refine ⟨?_, hLb, ?_⟩
  · show ((rkPipeline n a0 b0).a.set (2 * n) _).length = 2 * n + 1
    rw [List.length_set]
    exact hLa
  · intro i hi
    refine ⟨?_, (hPre i hi).2⟩
    show ((rkPipeline n a0 b0).a.set (2 * n) _).getD i 0 = a0.getD i 0
    rw [getD_set_ne _ _ _ _ ?_]
    · exact (hPre i hi).1
    · unfold floor_idx at hi
      omega

theorem r_kronrod_frame_witness :
    (1 ≤ 2) ∧ ([(1 : ℚ), 2, 3, 4].length = gk_length 2)
      ∧ ([(5 : ℚ), 6, 7, 8].length = gk_length 2)
      ∧ ((r_kronrod_core 2 [(1 : ℚ), 2, 3, 4] [(5 : ℚ), 6, 7, 8]).1.length = 2 * 2 + 1
        ∧ (r_kronrod_core 2 [(1 : ℚ), 2, 3, 4] [(5 : ℚ), 6, 7, 8]).2.length = 2 * 2 + 1
        ∧ ∀ i < floor_idx 2,
            (r_kronrod_core 2 [(1 : ℚ), 2, 3, 4] [(5 : ℚ), 6, 7, 8]).1.getD i 0
                = [(1 : ℚ), 2, 3, 4].getD i 0
              ∧ (r_kronrod_core 2 [(1 : ℚ), 2, 3, 4] [(5 : ℚ), 6, 7, 8]).2.getD i 0
                = [(5 : ℚ), 6, 7, 8].getD i 0) :=
  ⟨by decide, by decide, by decide,
    r_kronrod_frame 2 (by decide) _ _ (by decide) (by decide)⟩

end Quadpy
